import Mathlib

/-!
# Verification of the meme-trend aggregation pipeline

A shallow embedding of the normalize / merge-and-score / enrich pipeline of
`src/worker/index.js` (functions `normalizeTrend`, `detectCategory`,
`mergeAndScore`, `enrichWithKnowYourMeme`, and the constant tables
`CATEGORY_KEYWORDS`, `SOURCE_WEIGHTS`).

Modelling conventions:
* JavaScript numbers are modelled as rationals (`ℚ`); `Math.round` becomes
  `jsRound q = ⌊q + 1/2⌋`, which is the JS round-half-up rule.
* `Math.log10` is transcendental, so it is passed to `normalizeTrend` as an
  explicit function parameter `log10 : ℚ → ℚ`; theorems that need facts about
  it (only that `log10 x ≥ 0` for `x ≥ 1`) take them as hypotheses.
* Strings that undergo character-level processing (labels, identity keys,
  keywords, category terms) are modelled as `List Char` (`Str` below); tags
  that are only compared for equality (source tags, statuses, URLs) stay
  `String`.
* The call `new Date().toISOString().split('T')[0]` inside `normalizeTrend`
  is modelled by an explicit `today : String` parameter (effects become
  explicit parameters), and the network lookup of `enrichWithKnowYourMeme`
  by a `lookup : Str → Option MemeData` parameter.
* JS objects used as score maps are association lists with insert-or-
  overwrite (`upsert`); `Object.entries` iteration is a fold over the list.
* `Array.prototype.sort` is required by ECMAScript to be stable, so the
  final sort is modelled by a stable insertion sort with the comparator
  `(a, b) => b.aggregateScore - a.aggregateScore`.
* JS falsy-coalescing `a || b` on strings is `jsOrStr` (empty string is
  falsy); on numeric fields `x || 0` is the identity in the rational model
  and is dropped.
-/

/-- Character lists standing for JS strings that get character-level
processing. -/
abbrev Str := List Char

/-- JS `a || b` for strings: the empty string is falsy. -/
def jsOrStr (a b : Str) : Str := if a = [] then b else a

/-- JS `s || null` for an optional string field (empty string is falsy). -/
def jsOrNull (o : Option String) : Option String :=
  match o with
  | some s => if s = "" then none else some s
  | none => none

/-- Does `pat` match at the head of `text`? (helper for substring search). -/
def headMatch : Str → Str → Bool
  | [], _ => true
  | _ :: _, [] => false
  | p :: ps, c :: cs => p = c && headMatch ps cs

/-- JS `text.includes(pat)`: `pat` occurs contiguously inside `text`. -/
def strIncludes (text pat : Str) : Bool :=
  headMatch pat text ||
    match text with
    | [] => false
    | _ :: cs => strIncludes cs pat

/-- JS `toLowerCase()` (character-wise; only ASCII letters are affected by
the characters the pipeline keeps). -/
def lowerAll (s : Str) : Str := s.map Char.toLower

/-- JS `replace(/^#/, '')`: strip a single leading `'#'`. -/
def stripLeadHash (s : Str) : Str :=
  match s with
  | [] => []
  | c :: r => if c = '#' then r else c :: r

/-- Characters kept by the regex `[a-z0-9]` (the code filters with
`replace(/[^a-z0-9]/g, '')` after lowercasing). -/
def isAlnumLower (c : Char) : Bool :=
  ('a' ≤ c && c ≤ 'z') || ('0' ≤ c && c ≤ '9')

/-- The identity key of `normalizeTrend`:
`label.replace(/^#/,'').toLowerCase().replace(/[^a-z0-9]/g,'')`. -/
def identityKey (s : Str) : Str :=
  (lowerAll (stripLeadHash s)).filter isAlnumLower

/-- JS `[name, ...keywords].join(' ')`. -/
def joinSpaces : List Str → Str
  | [] => []
  | [x] => x
  | x :: xs => x ++ ' ' :: joinSpaces xs

/-- First-occurrence deduplication, the semantics of
`[...new Set([...])]`: iterate, skipping elements already seen. -/
def dedupFirstAux (seen : List Str) : List Str → List Str
  | [] => []
  | x :: xs =>
    if x ∈ seen then dedupFirstAux seen xs
    else x :: dedupFirstAux (x :: seen) xs

/-- `[...new Set(l)]`: keep the first occurrence of each element. -/
def dedupFirst (l : List Str) : List Str := dedupFirstAux [] l

/-- JS `Math.round`: round half away from zero is round half up for the
values involved; `Math.round(x) = ⌊x + 0.5⌋`. -/
def jsRound (q : ℚ) : ℤ := Rat.floor (q + 1/2)

/-- The five trend categories of the keyword dictionary plus the default. -/
inductive Category where
  | animal | ai | absurdist | crypto | unknown
  deriving DecidableEq, Repr

/-- `CATEGORY_KEYWORDS.animal`. -/
def animalTerms : List Str :=
  ["dog", "cat", "penguin", "hippo", "frog", "pepe", "doge", "shiba", "inu",
   "moo", "wif", "moodeng", "panda", "bear", "bird", "fish", "whale",
   "monkey", "ape", "rat", "hamster", "duck", "chicken", "cow", "pig",
   "horse", "bunny", "rabbit", "turtle", "croc", "gator", "snake"].map
    String.toList

/-- `CATEGORY_KEYWORDS.ai`. -/
def aiTerms : List Str :=
  ["ai", "gpt", "claude", "bot", "agent", "terminal", "goat", "truth",
   "chatgpt", "openai", "llm", "neural", "machine", "robot", "auto"].map
    String.toList

/-- `CATEGORY_KEYWORDS.absurdist`. -/
def absurdistTerms : List Str :=
  ["brainrot", "skibidi", "sigma", "ohio", "rizz", "gyatt", "delulu",
   "unhinged", "cursed", "chaos", "random", "weird", "sus", "slay", "aura",
   "npc", "mewing", "based"].map String.toList

/-- `CATEGORY_KEYWORDS.crypto`. -/
def cryptoTerms : List Str :=
  ["coin", "token", "moon", "hodl", "diamond", "hands", "pump", "rug",
   "degen", "wagmi", "ngmi", "gm", "solana", "sol", "eth", "btc", "crypto",
   "web3", "nft", "memecoin"].map String.toList

/-- `CATEGORY_KEYWORDS`, in object-literal (declaration) order: the order
`Object.entries` iterates. -/
def CATEGORY_KEYWORDS : List (Category × List Str) :=
  [(Category.animal, animalTerms), (Category.ai, aiTerms),
   (Category.absurdist, absurdistTerms), (Category.crypto, cryptoTerms)]

/-- The nested loop of `detectCategory`: first category whose term list has
a member occurring in `text`. -/
def findCat : List (Category × List Str) → Str → Category
  | [], _ => Category.unknown
  | (c, terms) :: rest, text =>
    if terms.any (fun t => strIncludes text t) then c else findCat rest text

/-- The text `detectCategory` scans: `[name, ...keywords].join(' ').toLowerCase()`. -/
def catText (name : Str) (keywords : List Str) : Str :=
  lowerAll (joinSpaces (name :: keywords))

/-- `detectCategory(name, keywords)` from the worker. -/
def detectCategory (name : Str) (keywords : List Str) : Category :=
  findCat CATEGORY_KEYWORDS (catText name keywords)

/-- `SOURCE_WEIGHTS[source] || 0.1`. -/
def sourceWeight (s : String) : ℚ :=
  if s = "twitter" then 3/10
  else if s = "reddit" then 1/4
  else if s = "tiktok" then 1/5
  else if s = "google" then 3/20
  else if s = "4chan" then 1/10
  else 1/10

/-- A raw observation as produced by a source adapter: exactly the fields
`normalizeTrend` reads. `keywords` is optional because an absent keyword
list and a present-but-empty one behave differently (`trend.keywords ||
[name]` keeps an empty array but replaces an absent one). -/
structure Obs where
  hashtag : Str
  displayName : Str
  keywords : Option (List Str)
  growth5h : ℚ
  growth24h : ℚ
  growth7d : ℚ
  rank : ℚ
  rankDiff : ℚ
  views : ℚ
  videoCount : ℚ
  redditScore : ℚ
  subreddits : List String
  isCashtag : Bool
  isHashtag : Bool
  chanReplies : ℚ
  chanImages : ℚ
  description : Str
  industry : Option String
  url : String
  articles : List String
  deriving DecidableEq, Repr

/-- Result of a successful Know Your Meme lookup. -/
structure MemeData where
  status : String
  origin : Option String
  year : Option ℤ
  deriving DecidableEq, Repr

/-- The canonical Trend record built by `normalizeTrend` and mutated by
`mergeAndScore` / `enrichWithKnowYourMeme`. `velocity` carries the numeric
payload of the `"+${growth24h}%"` display string. -/
structure Trend where
  name : Str
  displayName : Str
  sources : List String
  firstSeen : String
  scores : List (String × ℚ)
  aggregateScore : ℚ
  category : Category
  velocity : ℚ
  memeStatus : String
  hashtag : Str
  views : ℚ
  videoCount : ℚ
  growth5h : ℚ
  growth24h : ℚ
  growth7d : ℚ
  description : Str
  keywords : List Str
  rank : ℚ
  rankDiff : ℚ
  industry : Option String
  url : String
  articles : List String
  memeOrigin : Option String
  memeYear : Option ℤ
  deriving DecidableEq, Repr

/-- The `sourceScore` computation of `normalizeTrend`: one scoring branch
per known source tag, default 50. -/
def sourceScoreOf (log10 : ℚ → ℚ) (obs : Obs) (source : String) : ℚ :=
  if source = "tiktok" then
    let avgGrowth := (obs.growth5h + obs.growth24h + obs.growth7d) / 3
    min 100 (max 0 (avgGrowth / 10))
  else if source = "google" then
    max 0 (100 - obs.rank * 4)
  else if source = "reddit" then
    let subredditCount : ℚ :=
      if obs.subreddits.length = 0 then 1 else (obs.subreddits.length : ℚ)
    let base := min 100 (log10 (obs.redditScore + 1) * 20)
    min 100 (base * (1 + (subredditCount - 1) * (2/10)))
  else if source = "twitter" then
    let base := max 0 (100 - obs.rank * 3)
    let base := if obs.isCashtag then base * (13/10) else base
    let base := if obs.isHashtag then base * (11/10) else base
    min 100 base
  else if source = "4chan" then
    let base := min 100 (log10 (obs.chanReplies + 1) * 30)
    let base := if obs.chanImages > 10 then base * (12/10) else base
    min 100 base
  else 50

/-- `normalizeTrend(trend, source)`. The clock read
(`new Date().toISOString().split('T')[0]`) is the `today` parameter and
`Math.log10` is the `log10` parameter. -/
def normalizeTrend (log10 : ℚ → ℚ) (today : String) (obs : Obs)
    (source : String) : Trend :=
  let label := jsOrStr obs.hashtag (jsOrStr obs.displayName [])
  let name := identityKey label
  let category := detectCategory name (obs.keywords.getD [])
  let sourceScore : ℚ := sourceScoreOf log10 obs source
  { name := name
    displayName := jsOrStr obs.displayName (jsOrStr obs.hashtag ('#' :: name))
    sources := [source]
    firstSeen := today
    scores := [(source, ((jsRound sourceScore : ℤ) : ℚ))]
    aggregateScore := ((jsRound sourceScore : ℤ) : ℚ)
    category := category
    velocity := obs.growth24h
    memeStatus := "unknown"
    hashtag := jsOrStr obs.hashtag ('#' :: name)
    views := obs.views
    videoCount := obs.videoCount
    growth5h := obs.growth5h
    growth24h := obs.growth24h
    growth7d := obs.growth7d
    description := obs.description
    keywords := obs.keywords.getD [name]
    rank := obs.rank
    rankDiff := obs.rankDiff
    industry := jsOrNull obs.industry
    url := obs.url
    articles := obs.articles
    memeOrigin := none
    memeYear := none }

/-- Insert-or-overwrite into a JS-object score map (`existing.scores[source]
= score`): an existing key keeps its position, a new key is appended. -/
def upsert (m : List (String × ℚ)) (k : String) (v : ℚ) : List (String × ℚ) :=
  if k ∈ m.map (·.1) then m.map (fun kv => if kv.1 = k then (k, v) else kv)
  else m ++ [(k, v)]

/-- JS-object key lookup on the score map. -/
def lookupScore : List (String × ℚ) → String → Option ℚ
  | [], _ => none
  | kv :: rest, k => if kv.1 = k then some kv.2 else lookupScore rest k

/-- The duplicate-collision body of `mergeAndScore`: merge `t` into the
accumulator entry `existing` (union sources, overwrite scores, max the four
metric fields, union keywords, concat-and-cap articles, keep the longer
description). -/
def mergeInto (existing t : Trend) : Trend :=
  { existing with
    sources := t.sources.foldl
      (fun acc s => if s ∈ acc then acc else acc ++ [s]) existing.sources
    scores := t.scores.foldl (fun m kv => upsert m kv.1 kv.2) existing.scores
    views := max existing.views t.views
    growth5h := max existing.growth5h t.growth5h
    growth24h := max existing.growth24h t.growth24h
    growth7d := max existing.growth7d t.growth7d
    keywords := dedupFirst (existing.keywords ++ t.keywords)
    articles := if t.articles ≠ [] then
        (existing.articles ++ t.articles).take 5
      else existing.articles
    description := if existing.description.length < t.description.length then
        t.description
      else existing.description }

/-- One step of the grouping pass: `grouped` is the `Map` in insertion
order; a seen key is merged in place, a new key is appended. -/
def merge1 (acc : List Trend) (t : Trend) : List Trend :=
  if t.name ∈ acc.map (·.name) then
    acc.map (fun e => if e.name = t.name then mergeInto e t else e)
  else acc ++ [t]

/-- The grouping loop of `mergeAndScore` over all input trends. -/
def groupTrends (trends : List Trend) : List Trend :=
  trends.foldl merge1 []

/-- The per-trend scoring step of `mergeAndScore`: weighted mean over the
score-map entries, multi-source boost, category boost, round, cap at 100. -/
def scoreTrend (t : Trend) : Trend :=
  let acc := t.scores.foldl
    (fun (p : ℚ × ℚ) kv =>
      (p.1 + kv.2 * sourceWeight kv.1, p.2 + sourceWeight kv.1)) (0, 0)
  let agg0 := if 0 < acc.2 then acc.1 / acc.2 else 0
  let agg1 :=
    if 3 ≤ t.sources.length then agg0 * (13/10)
    else if 2 ≤ t.sources.length then agg0 * (23/20)
    else agg0
  let agg2 :=
    if t.category = Category.animal then agg1 * (14/10)
    else if t.category = Category.ai then agg1 * (13/10)
    else if t.category = Category.absurdist then agg1 * (12/10)
    else agg1
  { t with
    aggregateScore := min 100 ((jsRound agg2 : ℤ) : ℚ)
    velocity := t.growth24h }

/-- Stable descending insertion: place `x` before the first element whose
aggregate score is strictly smaller, after all elements scoring at least as
much (equal scores keep their original relative order, as the ECMAScript
stable sort with comparator `b.aggregateScore - a.aggregateScore` does). -/
def insertDesc (x : Trend) : List Trend → List Trend
  | [] => [x]
  | h :: t =>
    if h.aggregateScore ≤ x.aggregateScore then x :: h :: t
    else h :: insertDesc x t

/-- Stable sort by aggregate score descending. -/
def sortDesc : List Trend → List Trend
  | [] => []
  | x :: xs => insertDesc x (sortDesc xs)

/-- `mergeAndScore(trends)`: group by identity key, score each merged
trend, sort by aggregate score descending (stable). -/
def mergeAndScore (trends : List Trend) : List Trend :=
  sortDesc ((groupTrends trends).map scoreTrend)

/-- The per-entry body of the `enrichWithKnowYourMeme` loop: on a
successful lookup attach status/origin/year and boost a confirmed meme's
aggregate score by 1.2, re-capped at 100. -/
def enrichOne (lookup : Str → Option MemeData) (t : Trend) : Trend :=
  match lookup (jsOrStr t.name t.displayName) with
  | none => t
  | some md =>
    if md.status = "confirmed" then
      { t with
        memeStatus := md.status
        memeOrigin := md.origin
        memeYear := md.year
        aggregateScore := min 100 (t.aggregateScore * (12/10)) }
    else
      { t with
        memeStatus := md.status
        memeOrigin := md.origin
        memeYear := md.year }

/-- The enrichment loop: enrich the first `n` entries, leave the rest. -/
def enrichGo (lookup : Str → Option MemeData) : ℕ → List Trend → List Trend
  | _, [] => []
  | 0, l => l
  | n + 1, t :: ts => enrichOne lookup t :: enrichGo lookup n ts

/-- `enrichWithKnowYourMeme(trends)`: sequentially enrich the top
`min(10, length)` entries of the ranked list. -/
def enrichWithKnowYourMeme (lookup : Str → Option MemeData)
    (trends : List Trend) : List Trend :=
  enrichGo lookup (min 10 trends.length) trends

/-- Index of the first input trend carrying identity key `k` (encounter
order of identity keys). -/
def firstPos : List Trend → Str → ℕ
  | [], _ => 0
  | t :: ts, k => if t.name = k then 0 else firstPos ts k + 1

/-- Largest element of a value list (the element-wise maximum a fold of
`Math.max` computes); `0` on the empty list, which never arises below. -/
def maxQ : List ℚ → ℚ
  | [] => 0
  | x :: xs => xs.foldl max x

/-- The category classifier as the spec states it: scan the dictionary in
declaration order animal, ai, absurdist, crypto; the first category with a
term occurring in the concatenated text wins; default `unknown`. -/
def specDetectCategory (name : Str) (keywords : List Str) : Category :=
  let text := catText name keywords
  if animalTerms.any (fun t => strIncludes text t) then Category.animal
  else if aiTerms.any (fun t => strIncludes text t) then Category.ai
  else if absurdistTerms.any (fun t => strIncludes text t) then Category.absurdist
  else if cryptoTerms.any (fun t => strIncludes text t) then Category.crypto
  else Category.unknown

/-- The identity key in canonical form: stripping the leading `'#'` before
lowercasing and filtering changes nothing, because `'#'` is lowercase-fixed
and not alphanumeric. -/
theorem identityKey_eq_canon (s : Str) :
    identityKey s = (lowerAll s).filter isAlnumLower := by
  have hlow : Char.toLower '#' = '#' := by decide
  have halnum : isAlnumLower '#' = false := by decide
  cases s with
  | nil => rfl
  | cons c r =>
    by_cases hc : c = '#'
    · subst hc
      simp [identityKey, stripLeadHash, lowerAll, List.filter_cons, hlow, halnum]
    · simp [identityKey, stripLeadHash, hc]

/-- C5: the identity key computed by `normalizeTrend` is the label with one
leading `'#'` stripped, lowercased, and all non-alphanumeric characters
removed; it is a pure function of the label, and labels that agree up to
letter case, non-alphanumeric characters, or a leading `'#'` map to the
same key. -/
theorem c5_identity_key_canonical :
    (∀ (log10 : ℚ → ℚ) (today : String) (obs : Obs) (source : String),
        (normalizeTrend log10 today obs source).name =
          identityKey (jsOrStr obs.hashtag (jsOrStr obs.displayName []))) ∧
    (∀ s : Str, identityKey s =
        (lowerAll (stripLeadHash s)).filter isAlnumLower) ∧
    (∀ s : Str, identityKey ('#' :: s) = identityKey s) ∧
    (∀ s₁ s₂ : Str, lowerAll s₁ = lowerAll s₂ →
        identityKey s₁ = identityKey s₂) ∧
    (∀ s₁ s₂ : Str,
        (lowerAll s₁).filter isAlnumLower = (lowerAll s₂).filter isAlnumLower →
        identityKey s₁ = identityKey s₂) := by
  refine ⟨fun _ _ _ _ => rfl, fun _ => rfl, ?_, ?_, ?_⟩
  · intro s
    rw [identityKey_eq_canon ('#' :: s), identityKey_eq_canon s]
    have hlow : Char.toLower '#' = '#' := by decide
    have halnum : isAlnumLower '#' = false := by decide
    simp [lowerAll, List.filter_cons, hlow, halnum]
  · intro s₁ s₂ h
    rw [identityKey_eq_canon, identityKey_eq_canon, h]
  · intro s₁ s₂ h
    rw [identityKey_eq_canon, identityKey_eq_canon, h]

/-- Witness for C5 at a concrete label pair differing in case, punctuation
and a leading marker. -/
theorem c5_identity_key_canonical_witness :
    identityKey "#Moon-Doge!".toList = identityKey "moondoge".toList :=
  c5_identity_key_canonical.2.2.2.2 "#Moon-Doge!".toList "moondoge".toList
    (by decide)

/-- C6: `detectCategory` scans the dictionary in its declaration order
animal, ai, absurdist, crypto, returns the first category with a term
occurring in the concatenated text, and `unknown` when none matches; in
particular an animal-term match wins over every later category. -/
theorem c6_detect_category_first_match :
    (∀ (name : Str) (kws : List Str),
        detectCategory name kws = specDetectCategory name kws) ∧
    (∀ (name : Str) (kws : List Str),
        animalTerms.any (fun t => strIncludes (catText name kws) t) = true →
        detectCategory name kws = Category.animal) := by
  constructor
  · intro name kws
    rfl
  · intro name kws h
    simp [detectCategory, CATEGORY_KEYWORDS, findCat, h]

/-- Witness for C6: `"dogma"` contains both the animal term `"dog"` and the
crypto term `"gm"`; the animal category, declared first, wins. -/
theorem c6_detect_category_first_match_witness :
    detectCategory "dogma".toList [] = Category.animal :=
  c6_detect_category_first_match.2 "dogma".toList [] (by decide)

/-- C10: dictionary terms match as substrings of the concatenated text, not
as whole words: whenever any term of any dictionary category occurs
anywhere inside the text, the classifier does not return `unknown`. -/
theorem c10_substring_matching (name : Str) (kws : List Str)
    (cat : Category) (terms : List Str) (term : Str)
    (hcat : (cat, terms) ∈ CATEGORY_KEYWORDS) (hterm : term ∈ terms)
    (hinc : strIncludes (catText name kws) term = true) :
    detectCategory name kws ≠ Category.unknown := by
  have hany : terms.any (fun t => strIncludes (catText name kws) t) = true :=
    List.any_eq_true.mpr ⟨term, hterm, hinc⟩
  simp only [CATEGORY_KEYWORDS, List.mem_cons, List.mem_singleton,
    List.not_mem_nil, or_false] at hcat
  rcases hcat with h | h | h | h <;>
    · obtain ⟨h1, h2⟩ := Prod.mk.injEq .. ▸ h
      subst h2
      simp only [detectCategory, CATEGORY_KEYWORDS, findCat]
      split_ifs <;> simp_all

/-- Witness for C10: the two-letter ai term `"ai"` occurs inside the word
`"rain"`, so `"rain"` is not classified `unknown`. -/
theorem c10_substring_matching_witness :
    detectCategory "rain".toList [] ≠ Category.unknown :=
  c10_substring_matching "rain".toList [] Category.ai aiTerms "ai".toList
    (by decide) (by decide) (by decide)

/-- An all-empty observation, varied by record update in concrete checks. -/
def baseObs : Obs :=
  { hashtag := [], displayName := [], keywords := none, growth5h := 0,
    growth24h := 0, growth7d := 0, rank := 0, rankDiff := 0, views := 0,
    videoCount := 0, redditScore := 0, subreddits := [], isCashtag := false,
    isHashtag := false, chanReplies := 0, chanImages := 0, description := [],
    industry := none, url := "", articles := [] }

/-- A stand-in for `Math.log10` in concrete checks (the branches exercised
below never call it). -/
def zeroLog : ℚ → ℚ := fun _ => 0

/-- An all-empty trend record, varied by record update in concrete checks. -/
def baseTrend : Trend :=
  { name := [], displayName := [], sources := [], firstSeen := "",
    scores := [], aggregateScore := 0, category := Category.unknown,
    velocity := 0, memeStatus := "unknown", hashtag := [], views := 0,
    videoCount := 0, growth5h := 0, growth24h := 0, growth7d := 0,
    description := [], keywords := [], rank := 0, rankDiff := 0,
    industry := none, url := "", articles := [], memeOrigin := none,
    memeYear := none }

/-- C8 counterexample: `normalizeTrend` reads the current date
(`new Date().toISOString().split('T')[0]`) for the `firstSeen` field, so two
calls with identical observation and source arguments made on different
dates return different Trend records — the function is not pure in its two
arguments alone. -/
theorem c8_normalize_not_date_independent :
    normalizeTrend zeroLog "2025-01-01" { baseObs with hashtag := "#x".toList }
        "other" ≠
      normalizeTrend zeroLog "2025-01-02" { baseObs with hashtag := "#x".toList }
        "other" := by
  intro h
  have h2 : ("2025-01-01" : String) = "2025-01-02" := congrArg Trend.firstSeen h
  exact absurd h2 (by decide)

/-- C8 (amended): `normalizeTrend` depends on the clock only through
`firstSeen`: with the date read made explicit, every other field is a pure
function of the observation and the source tag, and `firstSeen` is exactly
the supplied date. -/
theorem c8_normalize_pure_except_firstSeen (log10 : ℚ → ℚ)
    (d₁ d₂ : String) (obs : Obs) (source : String) :
    (normalizeTrend log10 d₁ obs source).firstSeen = d₁ ∧
    normalizeTrend log10 d₁ obs source =
      { normalizeTrend log10 d₂ obs source with firstSeen := d₁ } :=
  ⟨rfl, rfl⟩

/-- C9: the enrichment stage preserves the length and order of the ranked
list; entries beyond the first `min(10, N)` positions are untouched; an
enriched entry keeps every field except the three meme fields and (for a
confirmed meme only) the aggregate score, which is boosted by 1.2 and
re-capped at 100. -/
theorem c9_enrichment_frame (lookup : Str → Option MemeData)
    (trends : List Trend) :
    (enrichWithKnowYourMeme lookup trends).length = trends.length ∧
    (enrichWithKnowYourMeme lookup trends).map (·.name) =
      trends.map (·.name) ∧
    (∀ i, min 10 trends.length ≤ i →
      (enrichWithKnowYourMeme lookup trends).get? i = trends.get? i) ∧
    (∀ i t u, i < min 10 trends.length → trends.get? i = some t →
      (enrichWithKnowYourMeme lookup trends).get? i = some u →
      (u.name = t.name ∧ u.displayName = t.displayName ∧
       u.sources = t.sources ∧ u.firstSeen = t.firstSeen ∧
       u.scores = t.scores ∧ u.category = t.category ∧
       u.velocity = t.velocity ∧ u.hashtag = t.hashtag ∧
       u.views = t.views ∧ u.videoCount = t.videoCount ∧
       u.growth5h = t.growth5h ∧ u.growth24h = t.growth24h ∧
       u.growth7d = t.growth7d ∧ u.description = t.description ∧
       u.keywords = t.keywords ∧ u.rank = t.rank ∧
       u.rankDiff = t.rankDiff ∧ u.industry = t.industry ∧
       u.url = t.url ∧ u.articles = t.articles) ∧
      (match lookup (jsOrStr t.name t.displayName) with
       | none => u = t
       | some md =>
         u.memeStatus = md.status ∧ u.memeOrigin = md.origin ∧
         u.memeYear = md.year ∧
         u.aggregateScore =
           (if md.status = "confirmed" then
              min 100 (t.aggregateScore * (12/10))
            else t.aggregateScore))) := by
  have hget : ∀ (n : ℕ) (l : List Trend) (i : ℕ),
      (enrichGo lookup n l).get? i =
        if i < n then (l.get? i).map (enrichOne lookup) else l.get? i := by
    intro n l
    induction l generalizing n with
    | nil => intro i; cases n <;> simp [enrichGo]
    | cons t ts ih =>
      intro i
      cases n with
      | zero => simp [enrichGo]
      | succ n =>
        cases i with
        | zero => simp [enrichGo]
        | succ i => simpa [enrichGo, Nat.succ_lt_succ_iff] using ih n i
  have hlen : ∀ (n : ℕ) (l : List Trend),
      (enrichGo lookup n l).length = l.length := by
    intro n l
    induction l generalizing n with
    | nil => cases n <;> simp [enrichGo]
    | cons t ts ih =>
      cases n with
      | zero => simp [enrichGo]
      | succ n => simp [enrichGo, ih n]
  have hone : ∀ t : Trend, ∃ u, enrichOne lookup t = u ∧ u.name = t.name := by
    intro t
    refine ⟨enrichOne lookup t, rfl, ?_⟩
    unfold enrichOne
    rcases lookup (jsOrStr t.name t.displayName) with _ | md
    · rfl
    · by_cases h : md.status = "confirmed" <;> simp [h]
  have hnames : ∀ (n : ℕ) (l : List Trend),
      (enrichGo lookup n l).map (·.name) = l.map (·.name) := by
    intro n l
    induction l generalizing n with
    | nil => cases n <;> simp [enrichGo]
    | cons t ts ih =>
      cases n with
      | zero => simp [enrichGo]
      | succ n =>
        obtain ⟨u, hu, hn⟩ := hone t
        simp [enrichGo, ih n, hu, hn]
  refine ⟨hlen _ _, hnames _ _, ?_, ?_⟩
  · intro i hi
    rw [enrichWithKnowYourMeme, hget, if_neg (by omega)]
  · intro i t u hi ht hu
    rw [enrichWithKnowYourMeme, hget, if_pos hi, ht] at hu
    have hu' : enrichOne lookup t = u := by
      simpa using hu
    subst hu'
    unfold enrichOne
    rcases hl : lookup (jsOrStr t.name t.displayName) with _ | md
    · simp
    · by_cases h : md.status = "confirmed" <;> simp [h]

/-- A concrete ranked trend for exercising the enrichment stage. -/
def c9t : Trend :=
  { baseTrend with name := "pepe".toList, aggregateScore := 50 }

/-- A lookup oracle that reports every queried term a confirmed meme. -/
def c9lookup : Str → Option MemeData :=
  fun _ => some { status := "confirmed", origin := some "4chan", year := some 2005 }

/-- Witness for C9: enriching a one-element list with a confirmed lookup
keeps the list shape and applies the 1.2 boost re-capped at 100. -/
theorem c9_enrichment_frame_witness :
    (enrichWithKnowYourMeme c9lookup [c9t]).get? 0 =
      some (enrichOne c9lookup c9t) ∧
    (enrichOne c9lookup c9t).memeStatus = "confirmed" ∧
    (enrichOne c9lookup c9t).aggregateScore =
      min 100 (c9t.aggregateScore * (12/10)) := by
  have hget : (enrichWithKnowYourMeme c9lookup [c9t]).get? 0 =
      some (enrichOne c9lookup c9t) := by
    simp [enrichWithKnowYourMeme, enrichGo]
  have H := (c9_enrichment_frame c9lookup [c9t]).2.2.2 0 c9t
    (enrichOne c9lookup c9t) (by decide) rfl hget
  refine ⟨hget, ?_, ?_⟩
  · have := H.2
    simpa [c9lookup] using this.1
  · have := H.2
    simpa [c9lookup] using this.2.2.2

/-- Membership in a stable descending insertion. -/
theorem mem_insertDesc {y x : Trend} {l : List Trend} :
    y ∈ insertDesc x l ↔ y = x ∨ y ∈ l := by
  induction l with
  | nil => simp [insertDesc]
  | cons h t ih =>
    by_cases hc : h.aggregateScore ≤ x.aggregateScore
    · simp [insertDesc, hc]
    · simp [insertDesc, hc, ih]
      tauto

/-- The stable sort is a reordering: membership is preserved. -/
theorem mem_sortDesc {y : Trend} {l : List Trend} :
    y ∈ sortDesc l ↔ y ∈ l := by
  induction l with
  | nil => simp [sortDesc]
  | cons x xs ih => simp [sortDesc, mem_insertDesc, ih]

/-- Every map weight is positive (the object table carries 0.10 … 0.30 and
unknown sources default to 0.1). -/
theorem sourceWeight_pos (s : String) : 0 < sourceWeight s := by
  unfold sourceWeight
  split_ifs <;> norm_num

/-- Rounding keeps nonnegative rationals nonnegative. -/
theorem jsRound_nonneg {q : ℚ} (h : 0 ≤ q) : 0 ≤ jsRound q := by
  have : ((0 : ℤ) : ℚ) ≤ q + 1/2 := by push_cast; linarith
  exact Rat.le_floor.mpr this

/-- Rounding keeps values at most 100 at most 100. -/
theorem jsRound_le_100 {q : ℚ} (h : q ≤ 100) : jsRound q ≤ 100 := by
  by_contra hgt
  have h101 : (101 : ℤ) ≤ jsRound q := by omega
  have : ((101 : ℤ) : ℚ) ≤ q + 1/2 := Rat.le_floor.mp h101
  push_cast at this
  linarith

/-- A value set by `upsert` comes from the old map or is the new value. -/
theorem upsert_values {P : ℚ → Prop} {m : List (String × ℚ)} {k : String}
    {v : ℚ} (hm : ∀ kv ∈ m, P kv.2) (hv : P v) :
    ∀ kv ∈ upsert m k v, P kv.2 := by
  intro kv hkv
  unfold upsert at hkv
  split_ifs at hkv
  · obtain ⟨kv0, h0, heq⟩ := List.mem_map.mp hkv
    by_cases hk : kv0.1 = k
    · simp [hk] at heq
      subst heq
      exact hv
    · simp [hk] at heq
      subst heq
      exact hm kv0 h0
  · rcases List.mem_append.mp hkv with h | h
    · exact hm kv h
    · simp at h
      subst h
      exact hv

/-- Merging preserves a predicate holding of all score-map values. -/
theorem mergeInto_scores_pred {P : ℚ → Prop} {a t : Trend}
    (ha : ∀ kv ∈ a.scores, P kv.2) (ht : ∀ kv ∈ t.scores, P kv.2) :
    ∀ kv ∈ (mergeInto a t).scores, P kv.2 := by
  show ∀ kv ∈ t.scores.foldl (fun m kv => upsert m kv.1 kv.2) a.scores, P kv.2
  have : ∀ (l : List (String × ℚ)) (m : List (String × ℚ)),
      (∀ kv ∈ m, P kv.2) → (∀ kv ∈ l, P kv.2) →
      ∀ kv ∈ l.foldl (fun m kv => upsert m kv.1 kv.2) m, P kv.2 := by
    intro l
    induction l with
    | nil => intro m hm _; exact hm
    | cons x xs ih =>
      intro m hm hl
      exact ih (upsert m x.1 x.2)
        (upsert_values hm (hl x (by simp)))
        (fun kv hkv => hl kv (by simp [hkv]))
  exact this t.scores a.scores ha ht

/-- The grouping pass preserves a predicate on score-map values. -/
theorem groupTrends_scores_pred {P : ℚ → Prop} {trends : List Trend}
    (h : ∀ t ∈ trends, ∀ kv ∈ t.scores, P kv.2) :
    ∀ u ∈ groupTrends trends, ∀ kv ∈ u.scores, P kv.2 := by
  have : ∀ (l : List Trend) (acc : List Trend),
      (∀ u ∈ acc, ∀ kv ∈ u.scores, P kv.2) →
      (∀ t ∈ l, ∀ kv ∈ t.scores, P kv.2) →
      ∀ u ∈ l.foldl merge1 acc, ∀ kv ∈ u.scores, P kv.2 := by
    intro l
    induction l with
    | nil => intro acc hacc _; exact hacc
    | cons x xs ih =>
      intro acc hacc hl
      refine ih (merge1 acc x) ?_ (fun t ht => hl t (by simp [ht]))
      intro u hu
      unfold merge1 at hu
      split_ifs at hu
      · obtain ⟨e, he, heq⟩ := List.mem_map.mp hu
        split_ifs at heq
        · subst heq
          exact mergeInto_scores_pred (hacc e he) (hl x (by simp))
        · subst heq
          exact hacc e he
      · rcases List.mem_append.mp hu with h' | h'
        · exact hacc u h'
        · have hux : u = x := by simpa using h'
          subst hux
          exact hl u (by simp)
  exact this trends [] (by simp) h

/-- The weighted-sum accumulator keeps both components nonnegative when all
scores are nonnegative. -/
theorem scoreFold_nonneg {l : List (String × ℚ)}
    (hl : ∀ kv ∈ l, (0:ℚ) ≤ kv.2) {a b : ℚ} (ha : 0 ≤ a) (hb : 0 ≤ b) :
    0 ≤ (l.foldl (fun (p : ℚ × ℚ) kv =>
        (p.1 + kv.2 * sourceWeight kv.1, p.2 + sourceWeight kv.1)) (a, b)).1 ∧
    0 ≤ (l.foldl (fun (p : ℚ × ℚ) kv =>
        (p.1 + kv.2 * sourceWeight kv.1, p.2 + sourceWeight kv.1)) (a, b)).2 := by
  induction l generalizing a b with
  | nil => exact ⟨ha, hb⟩
  | cons x xs ih =>
    have hw := (sourceWeight_pos x.1).le
    have hx : (0:ℚ) ≤ x.2 := hl x (by simp)
    exact ih (fun kv hkv => hl kv (by simp [hkv]))
      (by positivity) (by positivity)

/-- The scored aggregate of a trend with nonnegative per-source scores lies
in [0, 100]. -/
theorem scoreTrend_agg_bounds {t : Trend}
    (h : ∀ kv ∈ t.scores, (0:ℚ) ≤ kv.2) :
    0 ≤ (scoreTrend t).aggregateScore ∧ (scoreTrend t).aggregateScore ≤ 100 := by
  unfold scoreTrend
  set acc := t.scores.foldl (fun (p : ℚ × ℚ) kv =>
    (p.1 + kv.2 * sourceWeight kv.1, p.2 + sourceWeight kv.1)) (0, 0) with hacc
  obtain ⟨h1, h2⟩ := scoreFold_nonneg h (le_refl (0:ℚ)) (le_refl (0:ℚ))
  rw [← hacc] at h1 h2
  have hagg0 : 0 ≤ (if 0 < acc.2 then acc.1 / acc.2 else 0) := by
    split_ifs
    · exact div_nonneg h1 h2
    · exact le_refl 0
  set agg0 := if 0 < acc.2 then acc.1 / acc.2 else 0
  have hagg1 : 0 ≤ (if 3 ≤ t.sources.length then agg0 * (13/10)
      else if 2 ≤ t.sources.length then agg0 * (23/20) else agg0) := by
    split_ifs <;> positivity
  set agg1 := if 3 ≤ t.sources.length then agg0 * (13/10)
    else if 2 ≤ t.sources.length then agg0 * (23/20) else agg0
  have hagg2 : 0 ≤ (if t.category = Category.animal then agg1 * (14/10)
      else if t.category = Category.ai then agg1 * (13/10)
      else if t.category = Category.absurdist then agg1 * (12/10)
      else agg1) := by
    split_ifs <;> positivity
  set agg2 := if t.category = Category.animal then agg1 * (14/10)
    else if t.category = Category.ai then agg1 * (13/10)
    else if t.category = Category.absurdist then agg1 * (12/10)
    else agg1
  constructor
  · refine le_min (by norm_num) ?_
    exact_mod_cast jsRound_nonneg hagg2
  · exact min_le_left _ _

/-- Per-source scores stay in [0, 100] when the observation's rank, score
count and reply count are nonnegative. The hypothesis on `log10` is the
relevant fact about `Math.log10`: it is nonnegative from 1 upward. -/
theorem sourceScoreOf_bounds (log10 : ℚ → ℚ)
    (hlog : ∀ x : ℚ, 1 ≤ x → 0 ≤ log10 x) (obs : Obs) (source : String)
    (hrank : 0 ≤ obs.rank) (hrs : 0 ≤ obs.redditScore)
    (hcr : 0 ≤ obs.chanReplies) :
    0 ≤ sourceScoreOf log10 obs source ∧
      sourceScoreOf log10 obs source ≤ 100 := by
  by_cases h1 : source = "tiktok"
  · subst h1
    simp only [sourceScoreOf, if_pos rfl]
    exact ⟨le_min (by norm_num) (le_max_left 0 _), min_le_left _ _⟩
  by_cases h2 : source = "google"
  · subst h2
    simp only [sourceScoreOf, reduceIte]
    constructor
    · exact le_max_left 0 _
    · refine max_le (by norm_num) ?_
      have := mul_nonneg hrank (show (0:ℚ) ≤ 4 by norm_num)
      linarith
  by_cases h3 : source = "reddit"
  · subst h3
    simp only [sourceScoreOf, reduceIte]
    have hbase : 0 ≤ min 100 (log10 (obs.redditScore + 1) * 20) :=
      le_min (by norm_num) (mul_nonneg (hlog _ (by linarith)) (by norm_num))
    refine ⟨le_min (by norm_num) ?_, min_le_left _ _⟩
    split_ifs with hc
    · exact mul_nonneg hbase (by norm_num)
    · have hlen : (1:ℚ) ≤ (obs.subreddits.length : ℚ) := by
        exact_mod_cast Nat.one_le_iff_ne_zero.mpr hc
      exact mul_nonneg hbase (by linarith)
  by_cases h4 : source = "twitter"
  · subst h4
    simp only [sourceScoreOf, reduceIte]
    have h0 : (0:ℚ) ≤ max 0 (100 - obs.rank * 3) := le_max_left 0 _
    refine ⟨le_min (by norm_num) ?_, min_le_left _ _⟩
    split_ifs <;> positivity
  by_cases h5 : source = "4chan"
  · subst h5
    simp only [sourceScoreOf, reduceIte]
    have hbase : 0 ≤ min 100 (log10 (obs.chanReplies + 1) * 30) :=
      le_min (by norm_num) (mul_nonneg (hlog _ (by linarith)) (by norm_num))
    refine ⟨le_min (by norm_num) ?_, min_le_left _ _⟩
    split_ifs <;> positivity
  · simp only [sourceScoreOf, h1, h2, h3, h4, h5, if_false, reduceIte]
    norm_num

/-- Every element of the enriched list is an input entry, enriched or not. -/
theorem mem_enrichGo {lookup : Str → Option MemeData} {y : Trend} :
    ∀ {n : ℕ} {l : List Trend}, y ∈ enrichGo lookup n l →
      ∃ u ∈ l, y = u ∨ y = enrichOne lookup u := by
  intro n l
  induction l generalizing n with
  | nil => intro h; cases n <;> simp [enrichGo] at h
  | cons t ts ih =>
    intro h
    cases n with
    | zero =>
      exact ⟨y, by simpa [enrichGo] using h, Or.inl rfl⟩
    | succ n =>
      simp only [enrichGo, List.mem_cons] at h
      rcases h with h | h
      · exact ⟨t, by simp, Or.inr h⟩
      · obtain ⟨u, hu, hy⟩ := ih h
        exact ⟨u, by simp [hu], hy⟩

/-- Enrichment keeps an aggregate score inside [0, 100]. -/
theorem enrichOne_agg_bounds {lookup : Str → Option MemeData} {t : Trend}
    (h0 : 0 ≤ t.aggregateScore) (h1 : t.aggregateScore ≤ 100) :
    0 ≤ (enrichOne lookup t).aggregateScore ∧
      (enrichOne lookup t).aggregateScore ≤ 100 := by
  unfold enrichOne
  rcases lookup (jsOrStr t.name t.displayName) with _ | md
  · exact ⟨h0, h1⟩
  · by_cases hs : md.status = "confirmed"
    · simp only [hs, reduceIte]
      exact ⟨le_min (by norm_num) (by positivity), min_le_left _ _⟩
    · simp only [hs, reduceIte]
      exact ⟨h0, h1⟩

/-- C1 (amended): with nonnegative rank, reddit score and reply count —
which every adapter guarantees — all per-source scores of `normalizeTrend`
lie in [0, 100]; for inputs whose per-source scores are nonnegative, every
aggregate score of `mergeAndScore` lies in [0, 100]; and the enrichment
boost keeps aggregate scores inside [0, 100]. -/
theorem c1_score_clamping :
    (∀ (log10 : ℚ → ℚ), (∀ x : ℚ, 1 ≤ x → 0 ≤ log10 x) →
      ∀ (today : String) (obs : Obs) (source : String),
        0 ≤ obs.rank → 0 ≤ obs.redditScore → 0 ≤ obs.chanReplies →
        ∀ kv ∈ (normalizeTrend log10 today obs source).scores,
          0 ≤ kv.2 ∧ kv.2 ≤ 100) ∧
    (∀ trends : List Trend,
      (∀ t ∈ trends, ∀ kv ∈ t.scores, (0:ℚ) ≤ kv.2) →
      ∀ t ∈ mergeAndScore trends,
        0 ≤ t.aggregateScore ∧ t.aggregateScore ≤ 100) ∧
    (∀ (lookup : Str → Option MemeData) (trends : List Trend),
      (∀ t ∈ trends, 0 ≤ t.aggregateScore ∧ t.aggregateScore ≤ 100) →
      ∀ t ∈ enrichWithKnowYourMeme lookup trends,
        0 ≤ t.aggregateScore ∧ t.aggregateScore ≤ 100) := by
  refine ⟨?_, ?_, ?_⟩
  · intro log10 hlog today obs source hrank hrs hcr kv hkv
    have hmem : kv = (source,
        ((jsRound (sourceScoreOf log10 obs source) : ℤ) : ℚ)) := by
      simpa [normalizeTrend] using hkv
    obtain ⟨hb0, hb1⟩ := sourceScoreOf_bounds log10 hlog obs source hrank hrs hcr
    subst hmem
    constructor
    · show (0:ℚ) ≤ ((jsRound (sourceScoreOf log10 obs source) : ℤ) : ℚ)
      exact_mod_cast jsRound_nonneg hb0
    · show ((jsRound (sourceScoreOf log10 obs source) : ℤ) : ℚ) ≤ 100
      exact_mod_cast jsRound_le_100 hb1
  · intro trends h t ht
    have ht' : t ∈ (groupTrends trends).map scoreTrend := by
      simpa [mergeAndScore] using mem_sortDesc.mp ht
    obtain ⟨u, hu, hut⟩ := List.mem_map.mp ht'
    subst hut
    exact scoreTrend_agg_bounds (groupTrends_scores_pred h u hu)
  · intro lookup trends h t ht
    obtain ⟨u, hu, hy⟩ := mem_enrichGo ht
    obtain ⟨h0, h1⟩ := h u hu
    rcases hy with rfl | rfl
    · exact ⟨h0, h1⟩
    · exact enrichOne_agg_bounds h0 h1

/-- The observation of the C1 counterexample: a raw observation carrying a
negative rank, scored by the search-trend branch. -/
def c1obs : Obs := { baseObs with hashtag := "#x".toList, rank := -1 }

/-- C1 counterexample: the search-trend branch applies no upper clamp, so
an observation with rank −1 gets the per-source score 104, outside
[0, 100]. -/
theorem c1_score_clamping_counterexample :
    ("google", (104:ℚ)) ∈
      (normalizeTrend zeroLog "2025-01-01" c1obs "google").scores ∧
    ¬ ((104:ℚ) ≤ 100) := by
  constructor
  · have hss : sourceScoreOf zeroLog c1obs "google" = 104 := by
      rw [show sourceScoreOf zeroLog c1obs "google" =
            max 0 (100 - c1obs.rank * 4) from rfl]
      rw [show c1obs.rank = -1 from rfl]
      rw [max_eq_right (by norm_num)]
      norm_num
    have hscores : (normalizeTrend zeroLog "2025-01-01" c1obs "google").scores =
        [("google", ((jsRound (sourceScoreOf zeroLog c1obs "google") : ℤ) : ℚ))] :=
      rfl
    have hr : jsRound (104:ℚ) = 104 := by norm_num [jsRound, Rat.floor]
    rw [hscores, hss, hr]
    norm_num
  · norm_num

/-- Witness for C1 at an unknown source tag (neutral score 50) with all
hypotheses discharged. -/
theorem c1_score_clamping_witness :
    ("other", (50:ℚ)) ∈
      (normalizeTrend zeroLog "2025-01-01" baseObs "other").scores ∧
    (0 ≤ (50:ℚ) ∧ (50:ℚ) ≤ 100) := by
  have hss : sourceScoreOf zeroLog baseObs "other" = 50 := rfl
  have hr : jsRound (50:ℚ) = 50 := by norm_num [jsRound, Rat.floor]
  have hmem : ("other", (50:ℚ)) ∈
      (normalizeTrend zeroLog "2025-01-01" baseObs "other").scores := by
    rw [show (normalizeTrend zeroLog "2025-01-01" baseObs "other").scores =
        [("other", ((jsRound (sourceScoreOf zeroLog baseObs "other") : ℤ) : ℚ))]
      from rfl, hss, hr]
    norm_num
  exact ⟨hmem, c1_score_clamping.1 zeroLog (fun x hx => le_refl 0)
    "2025-01-01" baseObs "other" (le_refl 0) (le_refl 0) (le_refl 0)
    ("other", (50:ℚ)) hmem⟩

/-- The aggregate-score formula as the claim states it: source-weighted
mean `Σ(score_s × weight_s) / Σ(weight_s)` over the sources present in the
score map, times the multi-source boost counted over distinct contributing
sources, times the category boost, rounded to the nearest integer and
clamped to [0, 100]. -/
def specAggregateScore (scores : List (String × ℚ)) (sources : List String)
    (category : Category) : ℚ :=
  let mean := (scores.map (fun kv => kv.2 * sourceWeight kv.1)).sum /
    (scores.map (fun kv => sourceWeight kv.1)).sum
  let boosted :=
    if 3 ≤ sources.dedup.length then mean * (13/10)
    else if 2 ≤ sources.dedup.length then mean * (23/20)
    else mean
  let final :=
    if category = Category.animal then boosted * (14/10)
    else if category = Category.ai then boosted * (13/10)
    else if category = Category.absurdist then boosted * (12/10)
    else boosted
  max 0 (min 100 ((jsRound final : ℤ) : ℚ))

/-- The pair accumulator of `mergeAndScore` computes the two sums of the
weighted-mean formula. -/
theorem scoreFold_eq_sums (l : List (String × ℚ)) (a b : ℚ) :
    l.foldl (fun (p : ℚ × ℚ) kv =>
        (p.1 + kv.2 * sourceWeight kv.1, p.2 + sourceWeight kv.1)) (a, b) =
      (a + (l.map (fun kv => kv.2 * sourceWeight kv.1)).sum,
       b + (l.map (fun kv => sourceWeight kv.1)).sum) := by
  induction l generalizing a b with
  | nil => simp
  | cons x xs ih =>
    simp only [List.foldl_cons, List.map_cons, List.sum_cons, ih]
    rw [Prod.mk.injEq]
    constructor <;> ring

/-- C2 (amended): for every Trend produced by `mergeAndScore` whose sources
list is duplicate-free and whose per-source scores are nonnegative (both
hold for pipeline inputs), the aggregate score equals the spec formula:
weighted mean over the score-map entries, multi-source boost by number of
distinct sources, category boost, rounded and clamped to [0, 100]. Without
the nonnegativity assumption the code caps only above (it computes
`min(100, round(x))`, never clamping below at 0). -/
theorem c2_aggregate_formula (trends : List Trend) (t : Trend)
    (ht : t ∈ mergeAndScore trends) (hnd : t.sources.Nodup)
    (hpos : ∀ kv ∈ t.scores, (0:ℚ) ≤ kv.2) :
    t.aggregateScore = specAggregateScore t.scores t.sources t.category := by
  have ht' : t ∈ (groupTrends trends).map scoreTrend := by
    simpa [mergeAndScore] using mem_sortDesc.mp ht
  obtain ⟨u, hu, rfl⟩ := List.mem_map.mp ht'
  have hnd' : u.sources.Nodup := hnd
  have hpos' : ∀ kv ∈ u.scores, (0:ℚ) ≤ kv.2 := hpos
  show (scoreTrend u).aggregateScore =
    specAggregateScore u.scores u.sources u.category
  unfold scoreTrend specAggregateScore
  dsimp only
  rw [scoreFold_eq_sums, List.dedup_eq_self.mpr hnd']
  dsimp only
  set ws := (u.scores.map (fun kv => kv.2 * sourceWeight kv.1)).sum with hws
  set tw := (u.scores.map (fun kv => sourceWeight kv.1)).sum with htw
  have hws0 : 0 ≤ ws := by
    refine List.sum_nonneg ?_
    intro x hx
    obtain ⟨kv, hkv, rfl⟩ := List.mem_map.mp hx
    exact mul_nonneg (hpos' kv hkv) (sourceWeight_pos kv.1).le
  have htw0 : 0 ≤ tw := by
    refine List.sum_nonneg ?_
    intro x hx
    obtain ⟨kv, hkv, rfl⟩ := List.mem_map.mp hx
    exact (sourceWeight_pos kv.1).le
  have hmean : (if 0 < (0:ℚ) + tw then ((0:ℚ) + ws) / ((0:ℚ) + tw) else 0) =
      ws / tw := by
    rw [zero_add, zero_add]
    by_cases h : 0 < tw
    · rw [if_pos h]
    · rw [if_neg h, le_antisymm (not_lt.mp h) htw0, div_zero]
  rw [hmean]
  have hmean0 : 0 ≤ ws / tw := div_nonneg hws0 htw0
  set mean := ws / tw
  have hb : 0 ≤ (if 3 ≤ u.sources.length then mean * (13/10)
      else if 2 ≤ u.sources.length then mean * (23/20) else mean) := by
    split_ifs <;> positivity
  set boosted := if 3 ≤ u.sources.length then mean * (13/10)
    else if 2 ≤ u.sources.length then mean * (23/20) else mean
  have hf : 0 ≤ (if u.category = Category.animal then boosted * (14/10)
      else if u.category = Category.ai then boosted * (13/10)
      else if u.category = Category.absurdist then boosted * (12/10)
      else boosted) := by
    split_ifs <;> positivity
  set final := if u.category = Category.animal then boosted * (14/10)
    else if u.category = Category.ai then boosted * (13/10)
    else if u.category = Category.absurdist then boosted * (12/10)
    else boosted
  rw [max_eq_right]
  exact le_min (by norm_num) (by exact_mod_cast jsRound_nonneg hf)

/-- `jsRound` through the `Int.floor` API (for numeric evaluation). -/
theorem jsRound_eq_floor (q : ℚ) : jsRound q = ⌊q + 1/2⌋ := rfl

/-- A one-source trend with per-source score 80, as `normalizeTrend` would
shape it. -/
def c2w : Trend :=
  { baseTrend with
    name := "pepe".toList
    sources := ["twitter"]
    scores := [("twitter", 80)]
    category := Category.unknown }

/-- Witness for C2: on a single-source trend the merged aggregate equals
the spec formula, with all hypotheses discharged. -/
theorem c2_aggregate_formula_witness :
    scoreTrend c2w ∈ mergeAndScore [c2w] ∧
    (scoreTrend c2w).aggregateScore =
      specAggregateScore (scoreTrend c2w).scores (scoreTrend c2w).sources
        (scoreTrend c2w).category := by
  have hmem : scoreTrend c2w ∈ mergeAndScore [c2w] := by
    rw [show mergeAndScore [c2w] = [scoreTrend c2w] from rfl]
    exact List.mem_singleton.mpr rfl
  refine ⟨hmem, c2_aggregate_formula [c2w] _ hmem (by decide) ?_⟩
  intro kv hkv
  have : kv = ("twitter", (80:ℚ)) := by
    simpa [scoreTrend, c2w, baseTrend] using hkv
  rw [this]
  norm_num

/-- A trend carrying a negative per-source score: the code's only clamp is
`min(100, …)`, so the final aggregate goes below 0. -/
def c2neg : Trend :=
  { baseTrend with
    name := "x".toList
    sources := ["x"]
    scores := [("x", -100)] }

/-- C2 counterexample: with a negative per-source score the computed
aggregate is −100, while the formula of the claim — which clamps to
[0, 100] — gives 0; `mergeAndScore` does not clamp below. -/
theorem c2_aggregate_formula_counterexample :
    scoreTrend c2neg ∈ mergeAndScore [c2neg] ∧
    (scoreTrend c2neg).sources.Nodup ∧
    (scoreTrend c2neg).aggregateScore ≠
      specAggregateScore (scoreTrend c2neg).scores (scoreTrend c2neg).sources
        (scoreTrend c2neg).category := by
  have hmem : scoreTrend c2neg ∈ mergeAndScore [c2neg] := by
    rw [show mergeAndScore [c2neg] = [scoreTrend c2neg] from rfl]
    exact List.mem_singleton.mpr rfl
  refine ⟨hmem, by decide, ?_⟩
  have hw : sourceWeight "x" = 1/10 := rfl
  have hagg : (scoreTrend c2neg).aggregateScore = -100 := by
    unfold scoreTrend
    dsimp only
    rw [show c2neg.scores = [("x", (-100:ℚ))] from rfl,
      show c2neg.sources = ["x"] from rfl,
      show c2neg.category = Category.unknown from rfl]
    simp only [scoreFold_eq_sums, List.map_cons, List.map_nil, List.sum_cons,
      List.sum_nil, hw, List.length_cons, List.length_nil]
    rw [if_neg (show ¬ (Category.unknown = Category.animal) by decide),
      if_neg (show ¬ (Category.unknown = Category.ai) by decide),
      if_neg (show ¬ (Category.unknown = Category.absurdist) by decide)]
    norm_num [jsRound_eq_floor]
  have hspec : specAggregateScore (scoreTrend c2neg).scores
      (scoreTrend c2neg).sources (scoreTrend c2neg).category = 0 := by
    rw [show (scoreTrend c2neg).scores = [("x", (-100:ℚ))] from rfl,
      show (scoreTrend c2neg).sources = ["x"] from rfl,
      show (scoreTrend c2neg).category = Category.unknown from rfl]
    unfold specAggregateScore
    simp only [List.map_cons, List.map_nil, List.sum_cons, List.sum_nil, hw]
    rw [if_neg (show ¬ (Category.unknown = Category.animal) by decide),
      if_neg (show ¬ (Category.unknown = Category.ai) by decide),
      if_neg (show ¬ (Category.unknown = Category.absurdist) by decide)]
    norm_num [jsRound_eq_floor, List.dedup]
  rw [hagg, hspec]
  norm_num

/-- Merging never changes the identity key of the accumulator entry. -/
theorem mergeInto_name (a b : Trend) : (mergeInto a b).name = a.name := rfl

/-- Scoring never changes the identity key, per-source scores, sources,
category or metric fields of a merged trend. -/
theorem scoreTrend_frame (t : Trend) :
    (scoreTrend t).name = t.name ∧ (scoreTrend t).scores = t.scores ∧
    (scoreTrend t).sources = t.sources ∧
    (scoreTrend t).category = t.category ∧
    (scoreTrend t).views = t.views ∧ (scoreTrend t).growth5h = t.growth5h ∧
    (scoreTrend t).growth24h = t.growth24h ∧
    (scoreTrend t).growth7d = t.growth7d :=
  ⟨rfl, rfl, rfl, rfl, rfl, rfl, rfl, rfl⟩

/-- The grouping pass processes its input left to right. -/
theorem groupTrends_append_one (l : List Trend) (t : Trend) :
    groupTrends (l ++ [t]) = merge1 (groupTrends l) t := by
  simp [groupTrends, List.foldl_append]

/-- Identity keys after one grouping step: an already-seen key leaves the
key list unchanged, a new key is appended. -/
theorem merge1_names (acc : List Trend) (t : Trend) :
    (merge1 acc t).map (·.name) =
      if t.name ∈ acc.map (·.name) then acc.map (·.name)
      else acc.map (·.name) ++ [t.name] := by
  unfold merge1
  split_ifs with h
  · rw [List.map_map]
    have : ((·.name) ∘ fun e =>
        if e.name = t.name then mergeInto e t else e) = (·.name : Trend → Str) := by
      funext e
      by_cases he : e.name = t.name
      · simp [he, mergeInto_name]
      · simp [he]
    rw [this]
  · simp

/-- Membership in the first-occurrence dedup. -/
theorem mem_dedupFirstAux : ∀ (L seen : List Str) (k : Str),
    k ∈ dedupFirstAux seen L ↔ k ∈ L ∧ k ∉ seen := by
  intro L
  induction L with
  | nil => intro seen k; simp [dedupFirstAux]
  | cons x xs ih =>
    intro seen k
    by_cases hx : x ∈ seen
    · rw [dedupFirstAux, if_pos hx, ih]
      constructor
      · rintro ⟨h1, h2⟩
        exact ⟨List.mem_cons_of_mem _ h1, h2⟩
      · rintro ⟨h1, h2⟩
        rcases List.mem_cons.mp h1 with rfl | h1
        · exact absurd hx h2
        · exact ⟨h1, h2⟩
    · rw [dedupFirstAux, if_neg hx]
      constructor
      · intro h
        rcases List.mem_cons.mp h with rfl | h
        · exact ⟨List.mem_cons_self _ _, hx⟩
        · obtain ⟨h1, h2⟩ := (ih (x :: seen) k).mp h
          exact ⟨List.mem_cons_of_mem _ h1,
            fun hc => h2 (List.mem_cons_of_mem _ hc)⟩
      · rintro ⟨h1, h2⟩
        rcases List.mem_cons.mp h1 with rfl | h1
        · exact List.mem_cons_self _ _
        · by_cases hk : k = x
          · subst hk; exact List.mem_cons_self _ _
          · exact List.mem_cons_of_mem _ ((ih (x :: seen) k).mpr
              ⟨h1, fun hc => by
                rcases List.mem_cons.mp hc with h | h
                · exact hk h
                · exact h2 h⟩)

/-- The first-occurrence dedup is duplicate-free. -/
theorem nodup_dedupFirstAux : ∀ (L seen : List Str),
    (dedupFirstAux seen L).Nodup := by
  intro L
  induction L with
  | nil => intro seen; simp [dedupFirstAux]
  | cons x xs ih =>
    intro seen
    by_cases hx : x ∈ seen
    · rw [dedupFirstAux, if_pos hx]; exact ih seen
    · rw [dedupFirstAux, if_neg hx]
      refine List.nodup_cons.mpr ⟨?_, ih (x :: seen)⟩
      intro hc
      exact ((mem_dedupFirstAux xs (x :: seen) x).mp hc).2
        (List.mem_cons_self _ _)

/-- Appending one key to the input of the first-occurrence dedup appends it
to the output exactly when it is new. -/
theorem dedupFirstAux_append_one : ∀ (L seen : List Str) (k : Str),
    dedupFirstAux seen (L ++ [k]) =
      dedupFirstAux seen L ++ (if k ∈ seen ∨ k ∈ L then [] else [k]) := by
  intro L
  induction L with
  | nil =>
    intro seen k
    by_cases h : k ∈ seen <;> simp [dedupFirstAux, h]
  | cons x xs ih =>
    intro seen k
    by_cases hx : x ∈ seen
    · rw [List.cons_append, dedupFirstAux, if_pos hx, ih, dedupFirstAux,
        if_pos hx]
      congr 1
      by_cases hk : k ∈ seen ∨ k ∈ xs
      · rw [if_pos hk, if_pos ?_]
        rcases hk with h | h
        · exact Or.inl h
        · exact Or.inr (List.mem_cons_of_mem _ h)
      · rw [if_neg hk, if_neg ?_]
        rintro (h | h)
        · exact hk (Or.inl h)
        · rcases List.mem_cons.mp h with rfl | h
          · exact hk (Or.inl hx)
          · exact hk (Or.inr h)
    · rw [List.cons_append, dedupFirstAux, if_neg hx, ih, dedupFirstAux,
        if_neg hx, List.cons_append]
      congr 2
      by_cases hk : k ∈ x :: seen ∨ k ∈ xs
      · rw [if_pos hk, if_pos ?_]
        rcases hk with h | h
        · rcases List.mem_cons.mp h with rfl | h
          · exact Or.inr (List.mem_cons_self _ _)
          · exact Or.inl h
        · exact Or.inr (List.mem_cons_of_mem _ h)
      · rw [if_neg hk, if_neg ?_]
        rintro (h | h)
        · exact hk (Or.inl (List.mem_cons_of_mem _ h))
        · rcases List.mem_cons.mp h with rfl | h
          · exact hk (Or.inl (List.mem_cons_self _ _))
          · exact hk (Or.inr h)

/-- The grouped identity keys are exactly the input keys in
first-encounter order. -/
theorem groupTrends_names (trends : List Trend) :
    (groupTrends trends).map (·.name) = dedupFirst (trends.map (·.name)) := by
  induction trends using List.reverseRecOn with
  | nil => rfl
  | append_singleton l t ih =>
    rw [groupTrends_append_one, merge1_names, ih, List.map_append,
      List.map_singleton, dedupFirst, dedupFirst, dedupFirstAux_append_one]
    have hmem : t.name ∈ dedupFirstAux [] (l.map (·.name)) ↔
        t.name ∈ l.map (·.name) := by
      rw [mem_dedupFirstAux]
      simp
    by_cases h : t.name ∈ l.map (·.name)
    · rw [if_pos (hmem.mpr h), if_pos (Or.inr h)]
      simp
    · rw [if_neg (fun hc => h (hmem.mp hc)), if_neg ?_]
      rintro (hc | hc)
      · simp at hc
      · exact h hc

/-- Grouped identity keys are duplicate-free. -/
theorem groupTrends_names_nodup (trends : List Trend) :
    ((groupTrends trends).map (·.name)).Nodup := by
  rw [groupTrends_names]
  exact nodup_dedupFirstAux _ _

/-- A key occurs among the grouped trends exactly when it occurs among the
inputs. -/
theorem mem_groupTrends_names (trends : List Trend) (k : Str) :
    k ∈ (groupTrends trends).map (·.name) ↔ k ∈ trends.map (·.name) := by
  rw [groupTrends_names, dedupFirst, mem_dedupFirstAux]
  simp

/-- The values of one metric field over all observations carrying a given
identity key. -/
def metricOver (f : Trend → ℚ) (trends : List Trend) (k : Str) : List ℚ :=
  (trends.filter (fun o => o.name = k)).map f

theorem metricOver_append_one (f : Trend → ℚ) (l : List Trend) (t : Trend)
    (k : Str) :
    metricOver f (l ++ [t]) k =
      metricOver f l k ++ (if t.name = k then [f t] else []) := by
  unfold metricOver
  rw [List.filter_append, List.map_append]
  congr 1
  by_cases h : t.name = k <;> simp [h]

theorem metricOver_eq_nil (f : Trend → ℚ) (l : List Trend) (k : Str)
    (h : k ∉ l.map (·.name)) : metricOver f l k = [] := by
  unfold metricOver
  rw [List.filter_eq_nil.mpr, List.map_nil]
  intro o ho
  simp only [decide_eq_true_eq]
  intro hc
  exact h (List.mem_map.mpr ⟨o, ho, hc⟩)

theorem metricOver_ne_nil (f : Trend → ℚ) (l : List Trend) (k : Str)
    (h : k ∈ l.map (·.name)) : metricOver f l k ≠ [] := by
  obtain ⟨o, ho, hk⟩ := List.mem_map.mp h
  unfold metricOver
  simp only [ne_eq, List.map_eq_nil, List.filter_eq_nil, not_forall]
  exact ⟨o, ho, by simp [hk]⟩

/-- The running maximum over a nonempty list absorbs an appended value. -/
theorem maxQ_append_one {L : List ℚ} (h : L ≠ []) (v : ℚ) :
    maxQ (L ++ [v]) = max (maxQ L) v := by
  cases L with
  | nil => exact absurd rfl h
  | cons x xs => simp [maxQ, List.foldl_append]

/-- Any field merged by `Math.max` ends up as the maximum of that field
over all grouped observations with the same identity key. -/
theorem groupTrends_metric (f : Trend → ℚ)
    (hf : ∀ a b, f (mergeInto a b) = max (f a) (f b)) :
    ∀ (trends : List Trend), ∀ u ∈ groupTrends trends,
      f u = maxQ (metricOver f trends u.name) := by
  intro trends
  induction trends using List.reverseRecOn with
  | nil => intro u hu; simp [groupTrends] at hu
  | append_singleton l t ih =>
    intro u hu
    rw [groupTrends_append_one] at hu
    unfold merge1 at hu
    split_ifs at hu with hc
    · obtain ⟨e, he, heq⟩ := List.mem_map.mp hu
      split_ifs at heq with hname
      · subst heq
        rw [hf, mergeInto_name, hname, metricOver_append_one, if_pos rfl,
          maxQ_append_one (metricOver_ne_nil _ _ _
            ((mem_groupTrends_names l t.name).mp hc)),
          ih e he, hname]
      · subst heq
        rw [metricOver_append_one, if_neg (fun hcc => hname hcc.symm),
          List.append_nil]
        exact ih e he
    · rcases List.mem_append.mp hu with h | h
      · have hun : u.name ∈ (groupTrends l).map (·.name) :=
          List.mem_map.mpr ⟨u, h, rfl⟩
        have hne : ¬ (t.name = u.name) := fun hcc => hc (hcc ▸ hun)
        rw [metricOver_append_one, if_neg hne, List.append_nil]
        exact ih u h
      · have hut : u = t := by simpa using h
        subst hut
        rw [metricOver_append_one, if_pos rfl,
          metricOver_eq_nil f l u.name
            (fun hcc => hc ((mem_groupTrends_names l u.name).mpr hcc)),
          List.nil_append]
        simp [maxQ]

/-- C4: each of the four metric fields of a merged Trend is the maximum of
that field over all input observations sharing its identity key — never an
average or a sum. -/
theorem c4_metric_max_merge (trends : List Trend) (t : Trend)
    (ht : t ∈ mergeAndScore trends) :
    t.views = maxQ (metricOver (·.views) trends t.name) ∧
    t.growth5h = maxQ (metricOver (·.growth5h) trends t.name) ∧
    t.growth24h = maxQ (metricOver (·.growth24h) trends t.name) ∧
    t.growth7d = maxQ (metricOver (·.growth7d) trends t.name) := by
  have ht' : t ∈ (groupTrends trends).map scoreTrend := by
    simpa [mergeAndScore] using mem_sortDesc.mp ht
  obtain ⟨u, hu, rfl⟩ := List.mem_map.mp ht'
  refine ⟨?_, ?_, ?_, ?_⟩
  · show u.views = maxQ (metricOver (·.views) trends u.name)
    exact groupTrends_metric _ (fun a b => rfl) trends u hu
  · show u.growth5h = maxQ (metricOver (·.growth5h) trends u.name)
    exact groupTrends_metric _ (fun a b => rfl) trends u hu
  · show u.growth24h = maxQ (metricOver (·.growth24h) trends u.name)
    exact groupTrends_metric _ (fun a b => rfl) trends u hu
  · show u.growth7d = maxQ (metricOver (·.growth7d) trends u.name)
    exact groupTrends_metric _ (fun a b => rfl) trends u hu

/-- Duplicate observations of the key `"a"` with growth24h 40 and 90. -/
def c4a : Trend :=
  { baseTrend with
    name := "a".toList
    sources := ["x"]
    growth24h := 40 }

/-- The second duplicate observation, growth24h 90. -/
def c4b : Trend :=
  { baseTrend with
    name := "a".toList
    sources := ["y"]
    growth24h := 90 }

/-- Witness for C4: merging duplicates with growth24h 40 and 90 yields
exactly 90 — the maximum, not the average 65 or the sum 130. -/
theorem c4_metric_max_merge_witness :
    scoreTrend (mergeInto c4a c4b) ∈ mergeAndScore [c4a, c4b] ∧
    (scoreTrend (mergeInto c4a c4b)).growth24h =
      maxQ (metricOver (·.growth24h) [c4a, c4b]
        (scoreTrend (mergeInto c4a c4b)).name) ∧
    (scoreTrend (mergeInto c4a c4b)).growth24h = 90 := by
  have hmem : scoreTrend (mergeInto c4a c4b) ∈ mergeAndScore [c4a, c4b] := by
    rw [show mergeAndScore [c4a, c4b] = [scoreTrend (mergeInto c4a c4b)]
      from rfl]
    exact List.mem_singleton.mpr rfl
  refine ⟨hmem, (c4_metric_max_merge _ _ hmem).2.2.1, ?_⟩
  show max c4a.growth24h c4b.growth24h = 90
  rw [show c4a.growth24h = 40 from rfl, show c4b.growth24h = 90 from rfl,
    max_eq_right (by norm_num)]

/-- Merging a pair of observations with a shared identity key produces one
scored Trend: the second observation is merged into the first. -/
theorem mergeAndScore_pair (t1 t2 : Trend) (hname : t1.name = t2.name) :
    mergeAndScore [t1, t2] = [scoreTrend (mergeInto t1 t2)] := by
  unfold mergeAndScore
  have hg : groupTrends [t1, t2] = [mergeInto t1 t2] := by
    show merge1 (merge1 [] t1) t2 = _
    rw [show merge1 [] t1 = [t1] by simp [merge1]]
    unfold merge1
    rw [if_pos (by simp [hname])]
    simp [hname]
  rw [hg]
  rfl

/-- The aggregate score depends on the score map only through the two sums
of the weighted mean, on the sources only through their number, and on the
category. -/
theorem scoreTrend_agg_congr (u v : Trend)
    (hws : (u.scores.map (fun kv => kv.2 * sourceWeight kv.1)).sum =
      (v.scores.map (fun kv => kv.2 * sourceWeight kv.1)).sum)
    (htw : (u.scores.map (fun kv => sourceWeight kv.1)).sum =
      (v.scores.map (fun kv => sourceWeight kv.1)).sum)
    (hlen : u.sources.length = v.sources.length)
    (hcat : u.category = v.category) :
    (scoreTrend u).aggregateScore = (scoreTrend v).aggregateScore := by
  unfold scoreTrend
  dsimp only
  rw [scoreFold_eq_sums, scoreFold_eq_sums, hws, htw, hlen, hcat]

/-- JS-object lookup in a two-entry map is insensitive to entry order when
the keys differ. -/
theorem lookupScore_pair_swap {s1 s2 : String} (hs : s1 ≠ s2) (a b : ℚ)
    (k : String) :
    lookupScore [(s1, a), (s2, b)] k = lookupScore [(s2, b), (s1, a)] k := by
  have hs' : ¬ (s2 = s1) := fun hc => hs hc.symm
  by_cases h1 : s1 = k
  · subst h1
    simp [lookupScore, hs']
  · by_cases h2 : s2 = k
    · subst h2
      simp [lookupScore, h1, hs]
    · simp [lookupScore, h1, h2]

/-- C3 (amended): two normalized observations of the same identity key from
different sources merge to the same per-source score map, source set and
metric fields in either order; the aggregate score also agrees whenever the
two observations carry the same category. (In general the merged category —
hence the category boost — is taken from the first-encountered observation,
so observations with different keywords can make the two orders differ in
aggregate score.) -/
theorem c3_merge_commutative (log10 : ℚ → ℚ) (today : String)
    (o1 o2 : Obs) (s1 s2 : String) (hs : s1 ≠ s2)
    (hname : (normalizeTrend log10 today o1 s1).name =
      (normalizeTrend log10 today o2 s2).name) :
    ∀ u ∈ mergeAndScore
      [normalizeTrend log10 today o1 s1, normalizeTrend log10 today o2 s2],
    ∀ v ∈ mergeAndScore
      [normalizeTrend log10 today o2 s2, normalizeTrend log10 today o1 s1],
      (∀ k, lookupScore u.scores k = lookupScore v.scores k) ∧
      (∀ s, s ∈ u.sources ↔ s ∈ v.sources) ∧
      u.views = v.views ∧ u.growth5h = v.growth5h ∧
      u.growth24h = v.growth24h ∧ u.growth7d = v.growth7d ∧
      ((normalizeTrend log10 today o1 s1).category =
          (normalizeTrend log10 today o2 s2).category →
        u.aggregateScore = v.aggregateScore) := by
  intro u hu v hv
  set t1 := normalizeTrend log10 today o1 s1 with ht1
  set t2 := normalizeTrend log10 today o2 s2 with ht2
  rw [mergeAndScore_pair t1 t2 hname] at hu
  rw [mergeAndScore_pair t2 t1 hname.symm] at hv
  have hu' : u = scoreTrend (mergeInto t1 t2) := by simpa using hu
  have hv' : v = scoreTrend (mergeInto t2 t1) := by simpa using hv
  subst hu'
  subst hv'
  set x1 := ((jsRound (sourceScoreOf log10 o1 s1) : ℤ) : ℚ) with hx1
  set x2 := ((jsRound (sourceScoreOf log10 o2 s2) : ℤ) : ℚ) with hx2
  have hA_scores : (mergeInto t1 t2).scores = [(s1, x1), (s2, x2)] := by
    show List.foldl (fun m kv => upsert m kv.1 kv.2) t1.scores t2.scores = _
    rw [show t1.scores = [(s1, x1)] from rfl, show t2.scores = [(s2, x2)] from rfl]
    show upsert [(s1, x1)] s2 x2 = _
    unfold upsert
    rw [if_neg (by simp only [List.map_cons, List.map_nil,
      List.mem_singleton]; exact fun hc => hs hc.symm)]
    rfl
  have hB_scores : (mergeInto t2 t1).scores = [(s2, x2), (s1, x1)] := by
    show List.foldl (fun m kv => upsert m kv.1 kv.2) t2.scores t1.scores = _
    rw [show t2.scores = [(s2, x2)] from rfl, show t1.scores = [(s1, x1)] from rfl]
    show upsert [(s2, x2)] s1 x1 = _
    unfold upsert
    rw [if_neg (by simp only [List.map_cons, List.map_nil,
      List.mem_singleton]; exact hs)]
    rfl
  have hA_sources : (mergeInto t1 t2).sources = [s1, s2] := by
    show List.foldl (fun acc s => if s ∈ acc then acc else acc ++ [s])
      t1.sources t2.sources = _
    rw [show t1.sources = [s1] from rfl, show t2.sources = [s2] from rfl]
    show (if s2 ∈ [s1] then [s1] else [s1] ++ [s2]) = _
    rw [if_neg (by simp only [List.mem_singleton]; exact fun hc => hs hc.symm)]
    rfl
  have hB_sources : (mergeInto t2 t1).sources = [s2, s1] := by
    show List.foldl (fun acc s => if s ∈ acc then acc else acc ++ [s])
      t2.sources t1.sources = _
    rw [show t2.sources = [s2] from rfl, show t1.sources = [s1] from rfl]
    show (if s1 ∈ [s2] then [s2] else [s2] ++ [s1]) = _
    rw [if_neg (by simp only [List.mem_singleton]; exact hs)]
    rfl
  refine ⟨?_, ?_, max_comm _ _, max_comm _ _, max_comm _ _, max_comm _ _, ?_⟩
  · intro k
    rw [show (scoreTrend (mergeInto t1 t2)).scores = (mergeInto t1 t2).scores
        from rfl,
      show (scoreTrend (mergeInto t2 t1)).scores = (mergeInto t2 t1).scores
        from rfl,
      hA_scores, hB_scores]
    exact lookupScore_pair_swap hs x1 x2 k
  · intro s
    rw [show (scoreTrend (mergeInto t1 t2)).sources = (mergeInto t1 t2).sources
        from rfl,
      show (scoreTrend (mergeInto t2 t1)).sources = (mergeInto t2 t1).sources
        from rfl,
      hA_sources, hB_sources]
    simp [or_comm]
  · intro hcat
    refine scoreTrend_agg_congr _ _ ?_ ?_ ?_ ?_
    · rw [hA_scores, hB_scores]
      simp
      ring
    · rw [hA_scores, hB_scores]
      simp
      ring
    · rw [hA_sources, hB_sources]
      rfl
    · show t1.category = t2.category
      exact hcat

/-- Observation `#zzz` with keyword `dog` (classified animal), rank 10. -/
def c3o1 : Obs :=
  { baseObs with
    hashtag := "#zzz".toList
    keywords := some ["dog".toList]
    rank := 10 }

/-- Observation `#zzz` with no keywords (classified unknown), rank 5. -/
def c3o2 : Obs :=
  { baseObs with
    hashtag := "#zzz".toList
    keywords := some []
    rank := 5 }

/-- The `#zzz` observation normalized from the microblog source. -/
def c3t1 : Trend := normalizeTrend zeroLog "2025-01-01" c3o1 "twitter"

/-- The `#zzz` observation normalized from the search-trend source. -/
def c3t2 : Trend := normalizeTrend zeroLog "2025-01-01" c3o2 "google"

/-- C3 counterexample: the two merge orders disagree on the aggregate
score. The merged Trend keeps the category of the first-encountered
observation, and the category feeds a multiplicative boost: merging the
animal-tagged observation first gives ⌈73.3 × 1.15 × 1.4⌋ capped at 100,
the other order gives ⌈73.3 × 1.15⌋ = 84. -/
theorem c3_merge_commutative_counterexample :
    (mergeAndScore [c3t1, c3t2]).map (·.aggregateScore) ≠
      (mergeAndScore [c3t2, c3t1]).map (·.aggregateScore) := by
  have hname : c3t1.name = c3t2.name := by decide
  have hs1 : sourceScoreOf zeroLog c3o1 "twitter" = 70 := by
    rw [show sourceScoreOf zeroLog c3o1 "twitter" =
        min 100 (max 0 (100 - (10:ℚ) * 3)) from rfl,
      show ((100:ℚ) - 10 * 3) = 70 by norm_num,
      max_eq_right (by norm_num), min_eq_right (by norm_num)]
  have hs2 : sourceScoreOf zeroLog c3o2 "google" = 80 := by
    rw [show sourceScoreOf zeroLog c3o2 "google" =
        max 0 (100 - (5:ℚ) * 4) from rfl,
      show ((100:ℚ) - 5 * 4) = 80 by norm_num,
      max_eq_right (by norm_num)]
  have hx1 : ((jsRound (sourceScoreOf zeroLog c3o1 "twitter") : ℤ) : ℚ) = 70 := by
    rw [hs1]
    norm_num [jsRound_eq_floor]
  have hx2 : ((jsRound (sourceScoreOf zeroLog c3o2 "google") : ℤ) : ℚ) = 80 := by
    rw [hs2]
    norm_num [jsRound_eq_floor]
  have hA_scores : (mergeInto c3t1 c3t2).scores =
      [("twitter", (70:ℚ)), ("google", 80)] := by
    show List.foldl (fun m kv => upsert m kv.1 kv.2) c3t1.scores c3t2.scores = _
    rw [show c3t1.scores = [("twitter",
        ((jsRound (sourceScoreOf zeroLog c3o1 "twitter") : ℤ) : ℚ))] from rfl,
      show c3t2.scores = [("google",
        ((jsRound (sourceScoreOf zeroLog c3o2 "google") : ℤ) : ℚ))] from rfl,
      hx1, hx2]
    simp [upsert]
  have hB_scores : (mergeInto c3t2 c3t1).scores =
      [("google", (80:ℚ)), ("twitter", 70)] := by
    show List.foldl (fun m kv => upsert m kv.1 kv.2) c3t2.scores c3t1.scores = _
    rw [show c3t2.scores = [("google",
        ((jsRound (sourceScoreOf zeroLog c3o2 "google") : ℤ) : ℚ))] from rfl,
      show c3t1.scores = [("twitter",
        ((jsRound (sourceScoreOf zeroLog c3o1 "twitter") : ℤ) : ℚ))] from rfl,
      hx1, hx2]
    simp [upsert]
  have hA_src : (mergeInto c3t1 c3t2).sources = ["twitter", "google"] := by
    decide
  have hB_src : (mergeInto c3t2 c3t1).sources = ["google", "twitter"] := by
    decide
  have hA_cat : (mergeInto c3t1 c3t2).category = Category.animal := by decide
  have hB_cat : (mergeInto c3t2 c3t1).category = Category.unknown := by decide
  have hA : (scoreTrend (mergeInto c3t1 c3t2)).aggregateScore = 100 := by
    unfold scoreTrend
    dsimp only
    rw [hA_scores, hA_src, hA_cat, scoreFold_eq_sums]
    simp only [List.map_cons, List.map_nil, List.sum_cons, List.sum_nil,
      show sourceWeight "twitter" = 3/10 from rfl,
      show sourceWeight "google" = 3/20 from rfl,
      List.length_cons, List.length_nil]
    norm_num [jsRound_eq_floor]
  have hB : (scoreTrend (mergeInto c3t2 c3t1)).aggregateScore = 84 := by
    unfold scoreTrend
    dsimp only
    rw [hB_scores, hB_src, hB_cat, scoreFold_eq_sums]
    simp only [List.map_cons, List.map_nil, List.sum_cons, List.sum_nil,
      show sourceWeight "twitter" = 3/10 from rfl,
      show sourceWeight "google" = 3/20 from rfl,
      List.length_cons, List.length_nil]
    rw [if_neg (show ¬ (Category.unknown = Category.animal) by decide),
      if_neg (show ¬ (Category.unknown = Category.ai) by decide),
      if_neg (show ¬ (Category.unknown = Category.absurdist) by decide)]
    norm_num [jsRound_eq_floor]
  rw [mergeAndScore_pair c3t1 c3t2 hname,
    mergeAndScore_pair c3t2 c3t1 hname.symm]
  simp only [List.map_cons, List.map_nil, ne_eq, List.cons.injEq, and_true]
  rw [hA, hB]
  norm_num

/-- The `#zzz` no-keyword observation from the microblog source. -/
def c3wA : Trend := normalizeTrend zeroLog "2025-01-01" c3o2 "twitter"

/-- The `#zzz` no-keyword observation from the search-trend source. -/
def c3wB : Trend := normalizeTrend zeroLog "2025-01-01" c3o2 "google"

/-- Witness for C3: merging the same observation from two sources in
either order agrees on the score lookup, metrics and — the categories
being equal — the aggregate score. -/
theorem c3_merge_commutative_witness :
    lookupScore (scoreTrend (mergeInto c3wA c3wB)).scores "twitter" =
      lookupScore (scoreTrend (mergeInto c3wB c3wA)).scores "twitter" ∧
    (scoreTrend (mergeInto c3wA c3wB)).growth24h =
      (scoreTrend (mergeInto c3wB c3wA)).growth24h ∧
    (scoreTrend (mergeInto c3wA c3wB)).aggregateScore =
      (scoreTrend (mergeInto c3wB c3wA)).aggregateScore := by
  have hname : c3wA.name = c3wB.name := by decide
  have hmem1 : scoreTrend (mergeInto c3wA c3wB) ∈ mergeAndScore [c3wA, c3wB] := by
    rw [mergeAndScore_pair c3wA c3wB hname]
    exact List.mem_singleton.mpr rfl
  have hmem2 : scoreTrend (mergeInto c3wB c3wA) ∈ mergeAndScore [c3wB, c3wA] := by
    rw [mergeAndScore_pair c3wB c3wA hname.symm]
    exact List.mem_singleton.mpr rfl
  have H := c3_merge_commutative zeroLog "2025-01-01" c3o2 c3o2 "twitter"
    "google" (by decide) hname _ hmem1 _ hmem2
  exact ⟨H.1 "twitter", H.2.2.2.2.1, H.2.2.2.2.2.2 rfl⟩

/-- Position of the first occurrence of a key in a key list. -/
def firstPosS : List Str → Str → ℕ
  | [], _ => 0
  | x :: xs, k => if x = k then 0 else firstPosS xs k + 1

/-- `firstPos` only looks at the identity keys. -/
theorem firstPos_eq_firstPosS (trends : List Trend) (k : Str) :
    firstPos trends k = firstPosS (trends.map (·.name)) k := by
  induction trends with
  | nil => rfl
  | cons t ts ih => simp [firstPos, firstPosS, ih]

/-- The first-occurrence dedup lists keys in strictly increasing order of
their first position in the input. -/
theorem pairwise_firstPosS_dedupFirstAux :
    ∀ (L seen : List Str),
      List.Pairwise (fun a b => firstPosS L a < firstPosS L b)
        (dedupFirstAux seen L) := by
  intro L
  induction L with
  | nil => intro seen; simp [dedupFirstAux]
  | cons x xs ih =>
    intro seen
    by_cases hx : x ∈ seen
    · rw [dedupFirstAux, if_pos hx]
      refine (ih seen).imp_of_mem ?_
      intro a b ha hb hab
      have hax : a ≠ x := fun hc =>
        ((mem_dedupFirstAux xs seen a).mp ha).2 (hc ▸ hx)
      have hbx : b ≠ x := fun hc =>
        ((mem_dedupFirstAux xs seen b).mp hb).2 (hc ▸ hx)
      rw [firstPosS, if_neg (fun hc => hax hc.symm),
        firstPosS, if_neg (fun hc => hbx hc.symm)]
      omega
    · rw [dedupFirstAux, if_neg hx]
      refine List.pairwise_cons.mpr ⟨?_, ?_⟩
      · intro b hb
        have hbx : b ≠ x := fun hc =>
          ((mem_dedupFirstAux xs (x :: seen) b).mp hb).2
            (hc ▸ List.mem_cons_self _ _)
        rw [firstPosS, if_pos rfl, firstPosS, if_neg (fun hc => hbx hc.symm)]
        omega
      · refine (ih (x :: seen)).imp_of_mem ?_
        intro a b ha hb hab
        have hax : a ≠ x := fun hc =>
          ((mem_dedupFirstAux xs (x :: seen) a).mp ha).2
            (hc ▸ List.mem_cons_self _ _)
        have hbx : b ≠ x := fun hc =>
          ((mem_dedupFirstAux xs (x :: seen) b).mp hb).2
            (hc ▸ List.mem_cons_self _ _)
        rw [firstPosS, if_neg (fun hc => hax hc.symm),
          firstPosS, if_neg (fun hc => hbx hc.symm)]
        omega

/-- Stable insertion keeps the combined order: strictly larger scores
first, and the auxiliary relation `S` (original order) within equal
scores, provided the inserted element is `S`-before everything present. -/
theorem pairwise_insertDesc {S : Trend → Trend → Prop} {x : Trend} :
    ∀ {l : List Trend},
      List.Pairwise (fun a b => b.aggregateScore < a.aggregateScore ∨
        (b.aggregateScore = a.aggregateScore ∧ S a b)) l →
      (∀ y ∈ l, S x y) →
      List.Pairwise (fun a b => b.aggregateScore < a.aggregateScore ∨
        (b.aggregateScore = a.aggregateScore ∧ S a b)) (insertDesc x l) := by
  intro l
  induction l with
  | nil => intro _ _; simp [insertDesc]
  | cons h t ih =>
    intro hl hx
    obtain ⟨hh, ht⟩ := List.pairwise_cons.mp hl
    rw [insertDesc]
    split_ifs with hc
    · refine List.pairwise_cons.mpr ⟨?_, hl⟩
      intro y hy
      rcases List.mem_cons.mp hy with rfl | hy
      · rcases lt_or_eq_of_le hc with h1 | h1
        · exact Or.inl h1
        · exact Or.inr ⟨h1, hx _ (List.mem_cons_self _ _)⟩
      · have hyh : y.aggregateScore ≤ h.aggregateScore := by
          rcases hh y hy with h1 | h1
          · exact h1.le
          · exact h1.1.le
        rcases lt_or_eq_of_le (le_trans hyh hc) with h1 | h1
        · exact Or.inl h1
        · exact Or.inr ⟨h1, hx _ (List.mem_cons_of_mem _ hy)⟩
    · refine List.pairwise_cons.mpr ⟨?_, ?_⟩
      · intro y hy
        rcases mem_insertDesc.mp hy with rfl | hy
        · exact Or.inl (lt_of_not_le hc)
        · exact hh y hy
      · exact ih ht (fun y hy => hx y (List.mem_cons_of_mem _ hy))

/-- The stable sort of a list ordered by `S` is ordered by score
descending with `S` breaking ties. -/
theorem pairwise_sortDesc {S : Trend → Trend → Prop} :
    ∀ {l : List Trend}, List.Pairwise S l →
      List.Pairwise (fun a b => b.aggregateScore < a.aggregateScore ∨
        (b.aggregateScore = a.aggregateScore ∧ S a b)) (sortDesc l) := by
  intro l
  induction l with
  | nil => intro _; simp [sortDesc]
  | cons x xs ih =>
    intro hl
    obtain ⟨hx, hxs⟩ := List.pairwise_cons.mp hl
    rw [sortDesc]
    exact pairwise_insertDesc (ih hxs)
      (fun y hy => hx y (mem_sortDesc.mp hy))

/-- The scored grouped list is ordered by first encounter of identity keys
in the input. -/
theorem grouped_pairwise_firstPos (trends : List Trend) :
    List.Pairwise
      (fun a b => firstPos trends a.name < firstPos trends b.name)
      ((groupTrends trends).map scoreTrend) := by
  rw [List.pairwise_map]
  have h1 : List.Pairwise
      (fun a b : Str => firstPosS (trends.map (·.name)) a <
        firstPosS (trends.map (·.name)) b)
      ((groupTrends trends).map (·.name)) := by
    rw [groupTrends_names]
    exact pairwise_firstPosS_dedupFirstAux _ _
  rw [List.pairwise_map] at h1
  refine h1.imp ?_
  intro a b hab
  rw [firstPos_eq_firstPosS, firstPos_eq_firstPosS]
  exact hab

/-- C7: the list returned by `mergeAndScore` is sorted by aggregate score
descending, and trends with equal aggregate score appear in the order
their identity keys were first encountered in the input (the ECMAScript
sort is stable and the grouping `Map` preserves insertion order). -/
theorem c7_sorted_stable_ties (trends : List Trend) :
    List.Pairwise
      (fun a b => b.aggregateScore ≤ a.aggregateScore)
      (mergeAndScore trends) ∧
    List.Pairwise
      (fun a b => a.aggregateScore = b.aggregateScore →
        firstPos trends a.name < firstPos trends b.name)
      (mergeAndScore trends) := by
  have H := pairwise_sortDesc (grouped_pairwise_firstPos trends)
  constructor
  · refine H.imp ?_
    rintro a b (h | h)
    · exact h.le
    · exact h.1.le
  · refine H.imp ?_
    rintro a b (h | h) heq
    · exact absurd (heq ▸ h) (lt_irrefl _)
    · exact h.2
